import Mathlib

/-!
A shallow embedding of `port-scanner-goroutines.go`: the port specification
parser `parsePorts`, the function `main` up to the start of its worker pool, and
the body of one `scanPorts` worker.

Conventions of the embedding.

* A Go `string` is a `GoString`, a list of characters.  The program only ever
  distinguishes the ASCII characters `,`, `-`, `+` and `0` … `9` and the fixed
  flag names, so a character stands for a byte.
* A Go `int` is an `Int` between `minInt` and `maxInt` (64-bit, as on amd64 and
  arm64); the one operation of the program that can leave that interval, the
  `i++` of a counting loop, is wrapped with `wrapInt`.
* A loop whose number of iterations is not bounded by the size of its input
  takes a `fuel : Nat`; `none` means the loop was still running when the fuel
  ran out.  Memory is unbounded.
* The functions of Go's standard library that the program calls are modelled
  from their documentation, in the namespaces `strings`, `strconv` and `fmt`.
-/

namespace PortScanner

/-- A Go string. -/
abbrev GoString := List Char

/-! ## Machine integers -/

/-- The width of Go's `int`. -/
def intSize : Nat := 64

/-- The largest `int`. -/
def maxInt : Int := 2 ^ (intSize - 1) - 1

/-- The smallest `int`. -/
def minInt : Int := -(2 ^ (intSize - 1))

/-- Two's complement wraparound of an integer into the range of `int`. -/
def wrapInt (x : Int) : Int := (x + 2 ^ (intSize - 1)) % 2 ^ intSize - 2 ^ (intSize - 1)

/-- What a Go function with the result `(value, error)` returns: a value and a
nil error, or a zero value and an error with a message. -/
inductive Result (α : Type) where
  | ok (value : α)
  | error (msg : GoString)
deriving DecidableEq, Repr

/-! ## Standard library -/

namespace strings

/-- Go's `strings.Split(s, sep)` for a separator of one character: the pieces of
`s` between the occurrences of `sep`, of which there is one more than there are
occurrences. -/
def Split : GoString → Char → List GoString
  | [], _ => [[]]
  | c :: cs, sep =>
    if c = sep then [] :: Split cs sep
    else
      match Split cs sep with
      | [] => [[c]]
      | piece :: pieces => (c :: piece) :: pieces

/-- Go's `strings.Contains(s, substr)` for a substring of one character. -/
def Contains (s : GoString) (c : Char) : Bool := decide (c ∈ s)

/-- Go's `strings.HasPrefix(s, p)`. -/
def HasPrefix (s p : GoString) : Bool := p.isPrefixOf s

end strings

namespace strconv

/-- The value of a decimal digit, `none` for any other character. -/
def digit (c : Char) : Option Nat :=
  if '0' ≤ c ∧ c ≤ '9' then some (c.toNat - '0'.toNat) else none

/-- The number written by a run of decimal digits, read left to right on top of
the value `n` of the digits already read; `none` when a character is not a
digit. -/
def digits : GoString → Nat → Option Nat
  | [], n => some n
  | c :: cs, n =>
    match digit c with
    | none => none
    | some d => digits cs (10 * n + d)

/-- An unsigned decimal number: at least one character, all of them digits. -/
def unsigned : GoString → Option Nat
  | [] => none
  | s => digits s 0

/-- Go's `strconv.Atoi` on a 64-bit platform, keeping only whether it returns
an error (`none`) and otherwise its value: an optional sign `+` or `-`, then one
or more decimal digits, the value lying in the range of `int`. -/
def Atoi (s : GoString) : Option Int :=
  match s with
  | [] => none
  | c :: r =>
    if c = '-' then
      match unsigned r with
      | some n => if (n : Int) ≤ -minInt then some (-(n : Int)) else none
      | none => none
    else
      match unsigned (if c = '+' then r else c :: r) with
      | some n => if (n : Int) ≤ maxInt then some (n : Int) else none
      | none => none

end strconv

/-! ## `parsePorts` -/

/-- The loop `for i := start; i <= end; i++ { portRange = append(portRange, i) }`,
entered with the counter at `i`. -/
def appendRange : Nat → Int → Int → List Int → Option (List Int)
  | 0, _, _, _ => none
  | fuel + 1, i, end_, portRange =>
    if i ≤ end_ then appendRange fuel (wrapInt (i + 1)) end_ (portRange ++ [i])
    else some portRange

/-- The loop `for _, port := range ports` of `parsePorts`, run on the tokens
still to be read with the ports collected so far.  An error carries the message
of the `fmt.Errorf` that made it. -/
def parsePorts.tokens (fuel : Nat) :
    List GoString → List Int → Option (Result (List Int))
  | [], portRange => some (.ok portRange)
  | port :: ports, portRange =>
    if strings.Contains port '-' then
      match strings.Split port '-' with
      | [part0, part1] =>
        match strconv.Atoi part0 with
        | none => some (.error ("invalid start of port range: ".toList ++ part0))
        | some start =>
          match strconv.Atoi part1 with
          | none => some (.error ("invalid end of port range: ".toList ++ part1))
          | some end_ =>
            match appendRange fuel start end_ portRange with
            | none => none
            | some portRange => parsePorts.tokens fuel ports portRange
      | _ => some (.error ("invalid port range format: ".toList ++ port))
    else
      match strconv.Atoi port with
      | none => some (.error ("invalid port number: ".toList ++ port))
      | some portNum => parsePorts.tokens fuel ports (portRange ++ [portNum])

/-- The function `parsePorts(portArg, scanAll)`: `some (.ok ports)` when it
returns the list `ports` and a nil error, `some (.error msg)` when it returns a
nil list and an error with the message `msg`, `none` when one of its counting
loops is still running after `fuel` iterations. -/
def parsePorts (fuel : Nat) (portArg : GoString) (scanAll : Bool) :
    Option (Result (List Int)) :=
  if scanAll then
    match appendRange fuel 1 65535 [] with
    | none => none
    | some portRange => some (.ok portRange)
  else
    parsePorts.tokens fuel (strings.Split portArg ',') []

/-! ## `main`, up to the start of the worker pool -/

/-- A scan job. -/
structure Job where
  server : GoString
  port : Int
deriving DecidableEq, Repr

/-- The variables the flag loop of `main` assigns: the locals `minPacketRate`,
`portArg` and `delay` (a `time.Duration`, in nanoseconds) and the package-level
`verbose` and `numThreads`. -/
structure Flags where
  minPacketRate : Int
  portArg : GoString
  delay : Int
  verbose : Int
  numThreads : Int
deriving DecidableEq, Repr

/-- The values of the variables when the flag loop starts. -/
def Flags.initial : Flags :=
  { minPacketRate := 10000, portArg := [], delay := 0, verbose := 0, numThreads := 0 }

/-- The loop `for i, arg := range os.Args` of `main`, run on the arguments from
index `i` on.  `ParseDuration` is `time.ParseDuration`, keeping only whether it
returns an error.  An error is the line printed before `os.Exit(1)`. -/
def main.flags (ParseDuration : GoString → Option Int) : List GoString → Flags → Result Flags
  | [], st => .ok st
  | arg :: rest, st =>
    if strings.HasPrefix arg "--min-packet-rate=".toList then
      match strconv.Atoi (arg.drop "--min-packet-rate=".length) with
      | none => .error "Error: invalid minimum packet rate".toList
      | some rate => main.flags ParseDuration rest { st with minPacketRate := rate }
    else if strings.HasPrefix arg "--delay=".toList then
      match ParseDuration (arg.drop "--delay=".length) with
      | none => .error "Error: invalid delay duration".toList
      | some d => main.flags ParseDuration rest { st with delay := d }
    else if arg = "-p".toList ∧ rest ≠ [] then
      main.flags ParseDuration rest { st with portArg := rest.headD [] }
    else if arg = "-vvv".toList then
      main.flags ParseDuration rest { st with verbose := 3 }
    else if strings.HasPrefix arg "--threads=".toList then
      match strconv.Atoi (arg.drop "--threads=".length) with
      | none => .error "Error: invalid number of threads".toList
      | some n =>
        if n ≤ 0 then .error "Error: invalid number of threads".toList
        else main.flags ParseDuration rest { st with numThreads := n }
    else main.flags ParseDuration rest st

/-- The loop of `main` that fills `jobs`: `jobs[i] = Job{server: hostname, port: port}`
for the port at each index of `ports`. -/
def main.jobs (hostname : GoString) (ports : List Int) : List Job :=
  ports.map fun port => { server := hostname, port := port }

/-- How `main` gets on before it starts the workers. -/
inductive Startup where
  /-- A line is printed and the process exits with code 1. -/
  | exit1 (printed : GoString)
  /-- The index expression `os.Args[1]` is out of range. -/
  | panic
  /-- The workers are started with these variables and sent these jobs. -/
  | scan (flags : Flags) (jobs : List Job)
deriving DecidableEq, Repr

/-- The function `main` from its first statement to the construction of `jobs`.
`NumCPU` is the value of `runtime.NumCPU()`; `none` when the counting loop of
`parsePorts` is still running after `fuel` iterations. -/
def main (ParseDuration : GoString → Option Int) (NumCPU : Int) (fuel : Nat)
    (osArgs : List GoString) : Option Startup :=
  match main.flags ParseDuration osArgs Flags.initial with
  | .error printed => some (.exit1 printed)
  | .ok st =>
    let st := if st.numThreads = 0 then { st with numThreads := NumCPU } else st
    match osArgs with
    | _ :: hostname :: _ =>
      let st := if st.portArg = [] then { st with portArg := "1-65535".toList } else st
      match parsePorts fuel st.portArg true with
      | none => none
      | some (.error msg) => some (.exit1 ("Error: ".toList ++ msg))
      | some (.ok ports) => some (.scan st (main.jobs hostname ports))
    | _ => some .panic

/-! ## A `scanPorts` worker -/

/-- What a worker does that can be seen from outside it. -/
inductive Event where
  /-- The call `net.DialTimeout("tcp", address, timeout)`. -/
  | dial (address : GoString)
  /-- The call `conn.Close()`. -/
  | close
  /-- A `fmt.Printf` of this text. -/
  | print (text : GoString)
  /-- The call `time.Sleep(d)`, `d` in nanoseconds. -/
  | sleep (d : Int)
  /-- The call `wg.Done()`. -/
  | done
deriving DecidableEq, Repr

/-- The package-level slice `available` and the calls a worker has made. -/
structure Worker where
  available : List Int
  events : List Event
deriving DecidableEq, Repr

namespace fmt

/-- The verb `%d` of Go's `fmt` for an `int`. -/
def d (n : Int) : GoString := (toString n).toList

end fmt

/-- The address `fmt.Sprintf("%s:%d", job.server, job.port)`. -/
def Job.address (job : Job) : GoString := job.server ++ ':' :: fmt.d job.port

/-- One turn of the loop `for job := range jobsChan` of `scanPorts`.  `dial`
tells whether `net.DialTimeout` connects to an address (a nil error). -/
def scanPorts.job (dial : GoString → Bool) (verbose packetRate delay : Int)
    (w : Worker) (job : Job) : Worker :=
  let ip := job.address
  let w : Worker := { w with events := w.events ++ [.dial ip] }
  let w : Worker :=
    if dial ip then
      let w : Worker :=
        { available := w.available ++ [job.port], events := w.events ++ [.close] }
      if verbose ≥ 3 then
        { w with events := w.events ++ [.print ("Port ".toList ++ fmt.d job.port ++ " is open\n".toList)] }
      else w
    else w
  { w with events := w.events ++ [.sleep packetRate, .sleep delay, .done] }

/-- The function `scanPorts` run by one worker that receives the jobs `received`
from `jobsChan`, in that order, until the channel is closed, with `available`
as it stands when the worker starts and no other worker running.  `none` is
the run-time panic of an integer division by zero.  The parameter `jobs` of the
Go function, which it never reads, is left out, and `verbose`, a package-level
variable there, is a parameter here. -/
def scanPorts (dial : GoString → Bool) (verbose minPacketRate delay : Int)
    (received : List Job) (available : List Int) : Option Worker :=
  if minPacketRate = 0 then none
  else
    let packetRate := Int.tdiv 1000000000 minPacketRate
    some (received.foldl (scanPorts.job dial verbose packetRate delay)
      { available := available, events := [] })

/-- The durations of the `time.Sleep` calls among some events, in order. -/
def sleeps : List Event → List Int
  | [] => []
  | .sleep d :: es => d :: sleeps es
  | _ :: es => sleeps es

namespace time

/-- Go's `time.Sleep(d)`, as the time in nanoseconds for which the call pauses
the goroutine, at the least: `d`, and none at all when `d` is negative or zero,
the call then returning at once. -/
def Sleep (d : Int) : Int := if d ≤ 0 then 0 else d

end time

/-- The time a worker has slept: the pauses of its `time.Sleep` calls, added up. -/
def slept (events : List Event) : Int := ((sleeps events).map time.Sleep).sum

/-! ## The port specification, in the words of the specification -/

/-- A decimal integer: one or more characters, all of them decimal digits. -/
def isDecimal (s : GoString) : Bool := !s.isEmpty && s.all Char.isDigit

/-- The number that a run of decimal digits writes. -/
def decimalValue (s : GoString) : Nat :=
  s.foldl (fun n c => 10 * n + (c.toNat - 48)) 0

/-- A token of a port specification: a single integer, or a range with a start
and an end, each as it is written. -/
inductive Token where
  | single (n : GoString)
  | range (start end_ : GoString)
deriving DecidableEq, Repr

/-- The text of a token: `n`, or `start-end`. -/
def Token.text : Token → GoString
  | .single n => n
  | .range start end_ => start ++ '-' :: end_

/-- A token is valid when what it is made of are decimal integers. -/
def Token.isValid : Token → Bool
  | .single n => isDecimal n
  | .range start end_ => isDecimal start && isDecimal end_

/-- The list `[start, start+1, ..., end_]`, empty when `start > end_`. -/
def inclusive (start end_ : Int) : List Int :=
  (List.range (end_ + 1 - start).toNat).map fun (k : Nat) => start + (k : Int)

/-- The expansion of a token: `[n]`, or the inclusive range. -/
def Token.expansion : Token → List Int
  | .single n => [(decimalValue n : Int)]
  | .range start end_ => inclusive (decimalValue start) (decimalValue end_)

/-- The integers of a token are ones that an `int` holds, and the end of a range
is below the largest of them. -/
def Token.fits : Token → Bool
  | .single n => decide ((decimalValue n : Int) ≤ maxInt)
  | .range start end_ =>
    decide ((decimalValue start : Int) ≤ maxInt) && decide ((decimalValue end_ : Int) < maxInt)

/-- The texts `ts` written one after the other with a comma between them. -/
def commaSeparated : List GoString → GoString
  | [] => []
  | [t] => t
  | t :: ts => t ++ ',' :: commaSeparated ts

/-- A malformed token: one with a `-` that does not split into exactly two parts
at its dashes or has a part that is not a valid integer, or one without a `-`
that is not a valid integer, a valid integer being what `strconv.Atoi` accepts. -/
def malformed (tok : GoString) : Bool :=
  if '-' ∈ tok then
    match strings.Split tok '-' with
    | [start, end_] => (strconv.Atoi start).isNone || (strconv.Atoi end_).isNone
    | _ => true
  else (strconv.Atoi tok).isNone

/-- A token with a dash that splits into two parts, the second of them the
largest `int`. -/
def endsAtMaxInt (tok : GoString) : Bool :=
  decide ('-' ∈ tok) &&
    match strings.Split tok '-' with
    | [_, end_] => decide (strconv.Atoi end_ = some maxInt)
    | _ => false

/-! ## Machine integers: lemmas -/

theorem maxInt_eq : maxInt = 9223372036854775807 := by
  norm_num [maxInt, intSize]

theorem minInt_eq : minInt = -9223372036854775808 := by
  norm_num [minInt, intSize]

theorem wrapInt_eq (x : Int) :
    wrapInt x = (x + 9223372036854775808) % 18446744073709551616 - 9223372036854775808 := by
  norm_num [wrapInt, intSize]

theorem wrapInt_of_fits (x : Int) (h1 : minInt ≤ x) (h2 : x ≤ maxInt) : wrapInt x = x := by
  rw [wrapInt_eq]
  rw [maxInt_eq] at h2
  rw [minInt_eq] at h1
  omega

theorem wrapInt_le (x : Int) : wrapInt x ≤ maxInt := by
  rw [wrapInt_eq, maxInt_eq]
  omega

/-! ## The counting loop -/

theorem appendRange_of_lt (n : Nat) :
    ∀ (fuel : Nat) (i end_ : Int) (acc : List Int),
      (end_ + 1 - i).toNat = n → n < fuel → minInt ≤ i → end_ < maxInt →
      appendRange fuel i end_ acc = some (acc ++ inclusive i end_) := by
  induction n with
  | zero =>
    intro fuel i end_ acc hn hfuel _ _
    obtain ⟨f, rfl⟩ : ∃ f, fuel = f + 1 := ⟨fuel - 1, by omega⟩
    have hlt : ¬ i ≤ end_ := by omega
    simp [appendRange, hlt, inclusive, hn]
  | succ n ih =>
    intro fuel i end_ acc hn hfuel hmin hmax
    obtain ⟨f, rfl⟩ : ∃ f, fuel = f + 1 := ⟨fuel - 1, by omega⟩
    have hle : i ≤ end_ := by omega
    have hw : wrapInt (i + 1) = i + 1 := wrapInt_of_fits _ (by omega) (by omega)
    have hn1 : (end_ + 1 - (i + 1)).toNat = n := by omega
    rw [appendRange, if_pos hle, hw, ih f (i + 1) end_ (acc ++ [i]) hn1 (by omega) (by omega) hmax]
    simp only [inclusive, hn, hn1, List.range_succ_eq_map, List.map_cons, List.map_map,
      List.append_assoc, List.singleton_append]
    simp only [Nat.cast_zero, add_zero, List.cons_append, List.nil_append, Option.some.injEq,
      List.append_cancel_left_eq, List.cons.injEq, true_and]
    apply List.map_congr_left
    intro k _
    simp only [Function.comp, Nat.succ_eq_add_one]
    push_cast
    ring

theorem appendRange_maxInt (fuel : Nat) :
    ∀ (i : Int) (acc : List Int), i ≤ maxInt → appendRange fuel i maxInt acc = none := by
  induction fuel with
  | zero => intro i acc _; rfl
  | succ f ih =>
    intro i acc h
    rw [appendRange, if_pos h]
    exact ih _ _ (wrapInt_le _)

theorem length_inclusive (start end_ : Int) :
    (inclusive start end_).length = (end_ + 1 - start).toNat := by
  simp [inclusive]

theorem mem_inclusive (start end_ p : Int) (h : p ∈ inclusive start end_) :
    start ≤ p ∧ p ≤ end_ := by
  simp only [inclusive, List.mem_map, List.mem_range] at h
  obtain ⟨k, hk, rfl⟩ := h
  omega

theorem getElem?_inclusive (start end_ : Int) (k : Nat) (h : k < (end_ + 1 - start).toNat) :
    (inclusive start end_)[k]? = some (start + (k : Int)) := by
  simp [inclusive, List.getElem?_map, List.getElem?_range h]

theorem parsePorts_true_eq (fuel : Nat) (spec : GoString) (h : 65536 ≤ fuel) :
    parsePorts fuel spec true = some (.ok (inclusive 1 65535)) := by
  have hloop := appendRange_of_lt 65535 fuel 1 65535 [] (by decide) (by omega)
    (by rw [minInt_eq]; decide) (by rw [maxInt_eq]; decide)
  simp [parsePorts, hloop]

/-! ## `strconv.Atoi`: lemmas -/

theorem digit_of_isDigit (c : Char) (h : c.isDigit = true) :
    strconv.digit c = some (c.toNat - 48) := by
  have h1 : '0' ≤ c ∧ c ≤ '9' := by
    simp only [Char.isDigit, Bool.and_eq_true, decide_eq_true_eq] at h
    exact ⟨h.1, h.2⟩
  simp only [strconv.digit, h1, and_self, if_true]
  rfl

theorem digits_of_all (s : GoString) :
    ∀ n : Nat, s.all Char.isDigit = true →
      strconv.digits s n = some (s.foldl (fun n c => 10 * n + (c.toNat - 48)) n) := by
  induction s with
  | nil => intro n _; rfl
  | cons c cs ih =>
    intro n h
    simp only [List.all_cons, Bool.and_eq_true] at h
    simp only [strconv.digits, digit_of_isDigit c h.1, List.foldl_cons]
    exact ih _ h.2

theorem unsigned_of_isDecimal (s : GoString) (h : isDecimal s = true) :
    strconv.unsigned s = some (decimalValue s) := by
  cases s with
  | nil => simp [isDecimal] at h
  | cons c cs =>
    simp only [isDecimal, Bool.and_eq_true] at h
    simp only [strconv.unsigned, decimalValue]
    exact digits_of_all _ 0 h.2

theorem not_isDigit_minus : Char.isDigit '-' = false := by decide

theorem not_isDigit_plus : Char.isDigit '+' = false := by decide

theorem not_isDigit_comma : Char.isDigit ',' = false := by decide

theorem not_mem_of_isDecimal (s : GoString) (c : Char) (h : isDecimal s = true)
    (hc : c.isDigit = false) : c ∉ s := by
  intro hmem
  simp only [isDecimal, Bool.and_eq_true, List.all_eq_true] at h
  rw [h.2 c hmem] at hc
  exact Bool.noConfusion hc

theorem Atoi_of_isDecimal (s : GoString) (h : isDecimal s = true)
    (hfit : (decimalValue s : Int) ≤ maxInt) : strconv.Atoi s = some (decimalValue s : Int) := by
  have hu := unsigned_of_isDecimal s h
  cases s with
  | nil => simp [isDecimal] at h
  | cons c cs =>
    have hm : c ≠ '-' := by
      intro hc
      exact not_mem_of_isDecimal _ '-' h not_isDigit_minus (by simp [hc])
    have hp : c ≠ '+' := by
      intro hc
      exact not_mem_of_isDecimal _ '+' h not_isDigit_plus (by simp [hc])
    simp only [strconv.Atoi, hm, hp, if_false, hu, hfit, if_true]

theorem Atoi_fits (s : GoString) (v : Int) (h : strconv.Atoi s = some v) :
    minInt ≤ v ∧ v ≤ maxInt := by
  rw [minInt_eq, maxInt_eq]
  cases s with
  | nil => simp [strconv.Atoi] at h
  | cons c cs =>
    simp only [strconv.Atoi] at h
    rw [minInt_eq, maxInt_eq] at h
    by_cases hc : c = '-'
    · simp only [hc, if_true] at h
      cases hu : strconv.unsigned cs with
      | none => simp [hu] at h
      | some n =>
        simp only [hu] at h
        split_ifs at h with hle
        simp only [Option.some.injEq] at h
        omega
    · simp only [hc, if_false] at h
      cases hu : strconv.unsigned (if c = '+' then cs else c :: cs) with
      | none => simp [hu] at h
      | some n =>
        simp only [hu] at h
        split_ifs at h with hle
        simp only [Option.some.injEq] at h
        omega

/-! ## `strings.Split`: lemmas -/

theorem Split_ne_nil (s : GoString) (sep : Char) : strings.Split s sep ≠ [] := by
  cases s with
  | nil => simp [strings.Split]
  | cons c cs =>
    simp only [strings.Split]
    split_ifs
    · simp
    · split <;> simp

theorem Split_of_not_mem (s : GoString) (sep : Char) (h : sep ∉ s) :
    strings.Split s sep = [s] := by
  induction s with
  | nil => rfl
  | cons c cs ih =>
    simp only [List.mem_cons, not_or] at h
    have hc : ¬ c = sep := fun e => h.1 e.symm
    simp [strings.Split, hc, ih h.2]

theorem Split_append (a b : GoString) (sep : Char) (h : sep ∉ a) :
    strings.Split (a ++ sep :: b) sep = a :: strings.Split b sep := by
  induction a with
  | nil => simp [strings.Split]
  | cons c cs ih =>
    simp only [List.mem_cons, not_or] at h
    have hc : ¬ c = sep := fun e => h.1 e.symm
    simp [strings.Split, hc, ih h.2]

theorem Split_commaSeparated (ts : List GoString) (hne : ts ≠ [])
    (h : ∀ t ∈ ts, ',' ∉ t) : strings.Split (commaSeparated ts) ',' = ts := by
  induction ts with
  | nil => exact absurd rfl hne
  | cons t rest ih =>
    cases rest with
    | nil => exact Split_of_not_mem t ',' (h t (by simp))
    | cons u rest =>
      have hrest := ih (by simp) (fun x hx => h x (List.mem_cons_of_mem _ hx))
      simp only [commaSeparated]
      rw [Split_append _ _ _ (h t (by simp))]
      simp only [commaSeparated] at hrest
      rw [hrest]

/-! ## Valid tokens -/

theorem Token.comma_not_mem_text (t : Token) (h : t.isValid = true) : ',' ∉ t.text := by
  cases t with
  | single n => exact not_mem_of_isDecimal n ',' h not_isDigit_comma
  | range a b =>
    simp only [Token.isValid, Bool.and_eq_true] at h
    simp only [Token.text, List.mem_append, List.mem_cons, not_or]
    exact ⟨not_mem_of_isDecimal a ',' h.1 not_isDigit_comma, by decide,
      not_mem_of_isDecimal b ',' h.2 not_isDigit_comma⟩

theorem tokens_single (fuel : Nat) (n : GoString) (rest : List GoString) (acc : List Int)
    (hv : isDecimal n = true) (hfit : (decimalValue n : Int) ≤ maxInt) :
    parsePorts.tokens fuel (n :: rest) acc =
      parsePorts.tokens fuel rest (acc ++ [(decimalValue n : Int)]) := by
  have hdash : '-' ∉ n := not_mem_of_isDecimal n '-' hv not_isDigit_minus
  simp [parsePorts.tokens, strings.Contains, hdash, Atoi_of_isDecimal n hv hfit]

theorem tokens_range (fuel : Nat) (a b : GoString) (rest : List GoString) (acc : List Int)
    (ha : isDecimal a = true) (hb : isDecimal b = true)
    (hfita : (decimalValue a : Int) ≤ maxInt) (hfitb : (decimalValue b : Int) < maxInt)
    (hfuel : (inclusive (decimalValue a) (decimalValue b)).length < fuel) :
    parsePorts.tokens fuel ((a ++ '-' :: b) :: rest) acc =
      parsePorts.tokens fuel rest (acc ++ inclusive (decimalValue a) (decimalValue b)) := by
  have hsplit : strings.Split (a ++ '-' :: b) '-' = [a, b] := by
    rw [Split_append _ _ _ (not_mem_of_isDecimal a '-' ha not_isDigit_minus),
      Split_of_not_mem _ _ (not_mem_of_isDecimal b '-' hb not_isDigit_minus)]
  have hloop := appendRange_of_lt _ fuel (decimalValue a) (decimalValue b) acc rfl
    (by rw [← length_inclusive]; exact hfuel)
    (by rw [minInt_eq]; omega) hfitb
  simp [parsePorts.tokens, strings.Contains, hsplit, Atoi_of_isDecimal a ha hfita,
    Atoi_of_isDecimal b hb (le_of_lt hfitb), hloop]

theorem tokens_valid (fuel : Nat) (toks : List Token) :
    ∀ acc : List Int,
      (∀ t ∈ toks, t.isValid = true) → (∀ t ∈ toks, t.fits = true) →
      (∀ t ∈ toks, t.expansion.length < fuel) →
      parsePorts.tokens fuel (toks.map Token.text) acc =
        some (.ok (acc ++ toks.flatMap Token.expansion)) := by
  induction toks with
  | nil => intro acc _ _ _; simp [parsePorts.tokens]
  | cons t rest ih =>
    intro acc hv hf hl
    have hrest := fun acc' => ih acc' (fun x hx => hv x (List.mem_cons_of_mem _ hx))
      (fun x hx => hf x (List.mem_cons_of_mem _ hx)) (fun x hx => hl x (List.mem_cons_of_mem _ hx))
    have hvt := hv t (by simp)
    have hft := hf t (by simp)
    have hlt := hl t (by simp)
    cases t with
    | single n =>
      simp only [Token.fits, decide_eq_true_eq] at hft
      simp only [List.map_cons, Token.text, List.flatMap_cons, Token.expansion]
      rw [tokens_single fuel n _ acc hvt hft, hrest]
      simp
    | range a b =>
      simp only [Token.fits, Bool.and_eq_true, decide_eq_true_eq] at hft
      simp only [Token.isValid, Bool.and_eq_true] at hvt
      simp only [Token.expansion] at hlt
      simp only [List.map_cons, Token.text, List.flatMap_cons, Token.expansion]
      rw [tokens_range fuel a b _ acc hvt.1 hvt.2 hft.1 hft.2 hlt, hrest]
      simp

theorem tokens_runs_forever (fuel : Nat) (tok : GoString) (rest : List GoString)
    (acc : List Int) (a b : GoString) (start : Int) (hdash : '-' ∈ tok)
    (hsplit : strings.Split tok '-' = [a, b]) (ha : strconv.Atoi a = some start)
    (hb : strconv.Atoi b = some maxInt) :
    parsePorts.tokens fuel (tok :: rest) acc = none := by
  simp [parsePorts.tokens, strings.Contains, hdash, hsplit, ha, hb,
    appendRange_maxInt fuel start acc (Atoi_fits a start ha).2]

theorem tokens_error (fuel : Nat) :
    ∀ (toks : List GoString) (acc : List Int) (msg : GoString),
      parsePorts.tokens fuel toks acc = some (.error msg) →
      ∃ pre tok post, toks = pre ++ tok :: post ∧ (∀ t ∈ pre, malformed t = false) ∧
        malformed tok = true ∧
        (('-' ∉ tok ∧ msg = "invalid port number: ".toList ++ tok) ∨
         ('-' ∈ tok ∧ (strings.Split tok '-').length ≠ 2 ∧
            msg = "invalid port range format: ".toList ++ tok) ∨
         (∃ a b, '-' ∈ tok ∧ strings.Split tok '-' = [a, b] ∧ strconv.Atoi a = none ∧
            msg = "invalid start of port range: ".toList ++ a) ∨
         (∃ a b, '-' ∈ tok ∧ strings.Split tok '-' = [a, b] ∧ strconv.Atoi a ≠ none ∧
            strconv.Atoi b = none ∧ msg = "invalid end of port range: ".toList ++ b)) := by
  intro toks
  induction toks with
  | nil => intro acc msg h; simp [parsePorts.tokens] at h
  | cons tok rest ih =>
    intro acc msg h
    have step : ∀ acc', malformed tok = false →
        parsePorts.tokens fuel rest acc' = some (.error msg) →
        ∃ pre tok' post, tok :: rest = pre ++ tok' :: post ∧ (∀ t ∈ pre, malformed t = false) ∧
        malformed tok' = true ∧
        (('-' ∉ tok' ∧ msg = "invalid port number: ".toList ++ tok') ∨
         ('-' ∈ tok' ∧ (strings.Split tok' '-').length ≠ 2 ∧
            msg = "invalid port range format: ".toList ++ tok') ∨
         (∃ a b, '-' ∈ tok' ∧ strings.Split tok' '-' = [a, b] ∧ strconv.Atoi a = none ∧
            msg = "invalid start of port range: ".toList ++ a) ∨
         (∃ a b, '-' ∈ tok' ∧ strings.Split tok' '-' = [a, b] ∧ strconv.Atoi a ≠ none ∧
            strconv.Atoi b = none ∧ msg = "invalid end of port range: ".toList ++ b)) := by
      intro acc' hok hrest
      obtain ⟨pre, tok', post, hsplit, hpre, hbad, hmsg⟩ := ih acc' msg hrest
      refine ⟨tok :: pre, tok', post, by simp [hsplit], ?_, hbad, hmsg⟩
      intro t ht
      rcases List.mem_cons.mp ht with rfl | ht
      · exact hok
      · exact hpre t ht
    by_cases hdash : '-' ∈ tok
    · rcases hs : strings.Split tok '-' with _ | ⟨a, _ | ⟨b, _ | ⟨c, r⟩⟩⟩
      · exact absurd hs (Split_ne_nil _ _)
      · simp only [parsePorts.tokens, strings.Contains, hdash, decide_True, if_true, hs,
          Option.some.injEq, Result.error.injEq] at h
        exact ⟨[], tok, rest, rfl, by simp, by simp [malformed, hdash, hs],
          Or.inr (Or.inl ⟨hdash, by simp [hs], h.symm⟩)⟩
      · cases ha : strconv.Atoi a with
        | none =>
          simp only [parsePorts.tokens, strings.Contains, hdash, decide_True, if_true, hs, ha,
            Option.some.injEq, Result.error.injEq] at h
          exact ⟨[], tok, rest, rfl, by simp, by simp [malformed, hdash, hs, ha],
            Or.inr (Or.inr (Or.inl ⟨a, b, hdash, hs, ha, h.symm⟩))⟩
        | some start =>
          cases hb : strconv.Atoi b with
          | none =>
            simp only [parsePorts.tokens, strings.Contains, hdash, decide_True, if_true, hs, ha,
              hb, Option.some.injEq, Result.error.injEq] at h
            exact ⟨[], tok, rest, rfl, by simp, by simp [malformed, hdash, hs, ha, hb],
              Or.inr (Or.inr (Or.inr ⟨a, b, hdash, hs, by simp [ha], hb, h.symm⟩))⟩
          | some end_ =>
            cases hl : appendRange fuel start end_ acc with
            | none =>
              simp [parsePorts.tokens, strings.Contains, hdash, hs, ha, hb, hl] at h
            | some acc' =>
              simp only [parsePorts.tokens, strings.Contains, hdash, decide_True, if_true, hs,
                ha, hb, hl] at h
              exact step acc' (by simp [malformed, hdash, hs, ha, hb]) h
      · simp only [parsePorts.tokens, strings.Contains, hdash, decide_True, if_true, hs,
          Option.some.injEq, Result.error.injEq] at h
        exact ⟨[], tok, rest, rfl, by simp, by simp [malformed, hdash, hs],
          Or.inr (Or.inl ⟨hdash, by simp [hs], h.symm⟩)⟩
    · cases ha : strconv.Atoi tok with
      | none =>
        simp only [parsePorts.tokens, strings.Contains, hdash, decide_False, if_false, ha,
          Option.some.injEq, Result.error.injEq, Bool.false_eq_true] at h
        exact ⟨[], tok, rest, rfl, by simp, by simp [malformed, hdash, ha],
          Or.inl ⟨hdash, h.symm⟩⟩
      | some n =>
        simp only [parsePorts.tokens, strings.Contains, hdash, decide_False, if_false, ha,
          Bool.false_eq_true] at h
        exact step _ (by simp [malformed, hdash, ha]) h

theorem tokens_malformed (fuel : Nat) (tok : GoString) (rest : List GoString)
    (acc : List Int) (h : malformed tok = true) :
    ∃ msg, parsePorts.tokens fuel (tok :: rest) acc = some (.error msg) := by
  by_cases hdash : '-' ∈ tok
  · rcases hs : strings.Split tok '-' with _ | ⟨a, _ | ⟨b, _ | ⟨c, r⟩⟩⟩
    · exact absurd hs (Split_ne_nil _ _)
    · exact ⟨"invalid port range format: ".toList ++ tok,
        by simp [parsePorts.tokens, strings.Contains, hdash, hs]⟩
    · cases ha : strconv.Atoi a with
      | none =>
        exact ⟨"invalid start of port range: ".toList ++ a,
          by simp [parsePorts.tokens, strings.Contains, hdash, hs, ha]⟩
      | some start =>
        cases hb : strconv.Atoi b with
        | none =>
          exact ⟨"invalid end of port range: ".toList ++ b,
            by simp [parsePorts.tokens, strings.Contains, hdash, hs, ha, hb]⟩
        | some end_ => simp [malformed, hdash, hs, ha, hb] at h
    · exact ⟨"invalid port range format: ".toList ++ tok,
        by simp [parsePorts.tokens, strings.Contains, hdash, hs]⟩
  · cases ha : strconv.Atoi tok with
    | none =>
      exact ⟨"invalid port number: ".toList ++ tok,
        by simp [parsePorts.tokens, strings.Contains, hdash, ha]⟩
    | some n => simp [malformed, hdash, ha] at h

theorem tokens_wellformed (fuel : Nat) (tok : GoString) (rest : List GoString)
    (acc : List Int) (h : malformed tok = false) (hend : endsAtMaxInt tok = false)
    (hfuel : 2 ^ 64 < fuel) :
    ∃ acc', parsePorts.tokens fuel (tok :: rest) acc = parsePorts.tokens fuel rest acc' := by
  by_cases hdash : '-' ∈ tok
  · rcases hs : strings.Split tok '-' with _ | ⟨a, _ | ⟨b, _ | ⟨c, r⟩⟩⟩
    · exact absurd hs (Split_ne_nil _ _)
    · simp [malformed, hdash, hs] at h
    · cases ha : strconv.Atoi a with
      | none => simp [malformed, hdash, hs, ha] at h
      | some start =>
        cases hb : strconv.Atoi b with
        | none => simp [malformed, hdash, hs, ha, hb] at h
        | some end_ =>
          have hne : end_ ≠ maxInt := by
            intro e
            simp [endsAtMaxInt, hdash, hs, hb, e] at hend
          have hs1 := Atoi_fits a start ha
          have he1 := Atoi_fits b end_ hb
          have hlt : end_ < maxInt := lt_of_le_of_ne he1.2 hne
          have hloop := appendRange_of_lt _ fuel start end_ acc rfl
            (by
              have h1 := hs1.1
              have h2 := he1.2
              rw [minInt_eq] at h1
              rw [maxInt_eq] at h2
              norm_num at hfuel
              omega)
            hs1.1 hlt
          exact ⟨acc ++ inclusive start end_,
            by simp [parsePorts.tokens, strings.Contains, hdash, hs, ha, hb, hloop]⟩
    · simp [malformed, hdash, hs] at h
  · cases ha : strconv.Atoi tok with
    | none => simp [malformed, hdash, ha] at h
    | some n =>
      exact ⟨acc ++ [n], by simp [parsePorts.tokens, strings.Contains, hdash, ha]⟩

theorem tokens_until_malformed (fuel : Nat) (pre : List GoString) (tok : GoString)
    (post : List GoString) (hfuel : 2 ^ 64 < fuel) (hbad : malformed tok = true) :
    ∀ acc : List Int, (∀ t ∈ pre, malformed t = false ∧ endsAtMaxInt t = false) →
      ∃ msg, parsePorts.tokens fuel (pre ++ tok :: post) acc = some (.error msg) := by
  induction pre with
  | nil => intro acc _; exact tokens_malformed fuel tok post acc hbad
  | cons t rest ih =>
    intro acc hpre
    obtain ⟨acc', hstep⟩ := tokens_wellformed fuel t (rest ++ tok :: post) acc
      (hpre t (by simp)).1 (hpre t (by simp)).2 hfuel
    rw [List.cons_append, hstep]
    exact ih acc' (fun x hx => hpre x (List.mem_cons_of_mem _ hx))

/-! ## `main`: lemmas -/

theorem main_of_flags (ParseDuration : GoString → Option Int) (NumCPU : Int) (fuel : Nat)
    (arg0 hostname : GoString) (rest : List GoString) (st : Flags)
    (hflags : main.flags ParseDuration (arg0 :: hostname :: rest) Flags.initial = .ok st)
    (hfuel : 65536 ≤ fuel) :
    ∃ st', main ParseDuration NumCPU fuel (arg0 :: hostname :: rest) =
        some (.scan st' (main.jobs hostname (inclusive 1 65535))) ∧
      st'.minPacketRate = st.minPacketRate ∧ st'.delay = st.delay ∧
      st'.verbose = st.verbose ∧
      st'.numThreads = (if st.numThreads = 0 then NumCPU else st.numThreads) ∧
      st'.portArg = (if st.portArg = [] then "1-65535".toList else st.portArg) := by
  simp only [main, hflags, parsePorts_true_eq fuel _ hfuel]
  refine ⟨_, rfl, ?_, ?_, ?_, ?_, ?_⟩ <;> split_ifs <;> simp_all

theorem appendRange_mono (n f : Nat) :
    ∀ (i e : Int) (acc r : List Int),
      appendRange f i e acc = some r → appendRange (f + n) i e acc = some r := by
  induction f with
  | zero => intro i e acc r hr; simp [appendRange] at hr
  | succ f ih =>
    intro i e acc r hr
    rw [show f + 1 + n = (f + n) + 1 by omega]
    simp only [appendRange] at hr ⊢
    split_ifs at hr ⊢ with hle
    · exact ih _ _ _ _ hr
    · exact hr

theorem parsePorts_true_inv (fuel : Nat) (spec : GoString) (ports : List Int)
    (h : parsePorts fuel spec true = some (.ok ports)) : ports = inclusive 1 65535 := by
  simp only [parsePorts, if_true] at h
  cases hl : appendRange fuel 1 65535 [] with
  | none => simp [hl] at h
  | some r =>
    simp only [hl, Option.some.injEq, Result.ok.injEq] at h
    have h1 := appendRange_mono 65536 fuel 1 65535 [] r hl
    have h2 := appendRange_of_lt 65535 (fuel + 65536) 1 65535 [] (by decide) (by omega)
      (by rw [minInt_eq]; decide) (by rw [maxInt_eq]; decide)
    rw [h2, List.nil_append] at h1
    rw [← h]
    exact (Option.some.inj h1).symm

theorem scan_of_parsePorts (fuel : Nat) (hostname : GoString) (st1 st : Flags)
    (jobs : List Job)
    (h : (match parsePorts fuel st1.portArg true with
          | none => none
          | some (.error msg) => some (Startup.exit1 ("Error: ".toList ++ msg))
          | some (.ok ports) =>
            some (Startup.scan st1 (main.jobs hostname ports))) =
        some (Startup.scan st jobs)) :
    ∃ ports, parsePorts fuel st.portArg true = some (.ok ports) ∧
      jobs = main.jobs hostname ports := by
  cases hp : parsePorts fuel st1.portArg true with
  | none => simp [hp] at h
  | some r =>
    cases r with
    | error msg => simp [hp] at h
    | ok ports =>
      simp only [hp, Option.some.injEq, Startup.scan.injEq] at h
      refine ⟨ports, ?_, h.2.symm⟩
      rw [← h.1]
      exact hp

theorem main_scan_inv (ParseDuration : GoString → Option Int) (NumCPU : Int) (fuel : Nat)
    (osArgs : List GoString) (st : Flags) (jobs : List Job)
    (h : main ParseDuration NumCPU fuel osArgs = some (.scan st jobs)) :
    ∃ hostname ports, parsePorts fuel st.portArg true = some (.ok ports) ∧
      jobs = main.jobs hostname ports := by
  unfold main at h
  cases hf : main.flags ParseDuration osArgs Flags.initial with
  | error m => simp [hf] at h
  | ok st0 =>
    rcases osArgs with _ | ⟨a0, _ | ⟨hostname, rest⟩⟩
    · simp [hf] at h
    · simp [hf] at h
    · simp only [hf] at h
      exact ⟨hostname, scan_of_parsePorts fuel hostname _ st jobs h⟩

/-! ## `scanPorts`: lemmas -/

theorem sleeps_append (xs ys : List Event) : sleeps (xs ++ ys) = sleeps xs ++ sleeps ys := by
  induction xs with
  | nil => rfl
  | cons e es ih => cases e <;> simp [sleeps, ih]

theorem job_available (dial : GoString → Bool) (verbose packetRate delay : Int)
    (w : Worker) (job : Job) :
    (scanPorts.job dial verbose packetRate delay w job).available =
      if dial job.address then w.available ++ [job.port] else w.available := by
  simp only [scanPorts.job]
  split_ifs <;> rfl

theorem job_events (dial : GoString → Bool) (verbose packetRate delay : Int)
    (w : Worker) (job : Job) :
    ∃ mid, (scanPorts.job dial verbose packetRate delay w job).events =
        w.events ++ mid ++ [.sleep packetRate, .sleep delay, .done] ∧ sleeps mid = [] := by
  simp only [scanPorts.job]
  split_ifs
  · exact ⟨[.dial job.address, .close,
      .print ("Port ".toList ++ fmt.d job.port ++ " is open\n".toList)], by simp, rfl⟩
  · exact ⟨[.dial job.address, .close], by simp, rfl⟩
  · exact ⟨[.dial job.address], by simp, rfl⟩

theorem foldl_job_available (dial : GoString → Bool) (verbose packetRate delay : Int)
    (received : List Job) :
    ∀ w : Worker,
      (received.foldl (scanPorts.job dial verbose packetRate delay) w).available =
        w.available ++ (received.filter fun job => dial job.address).map Job.port := by
  induction received with
  | nil => intro w; simp
  | cons job rest ih =>
    intro w
    rw [List.foldl_cons, ih, job_available]
    by_cases hd : dial job.address = true <;> simp [hd, List.filter_cons]

theorem foldl_job_sleeps (dial : GoString → Bool) (verbose packetRate delay : Int)
    (received : List Job) :
    ∀ w : Worker,
      sleeps (received.foldl (scanPorts.job dial verbose packetRate delay) w).events =
        sleeps w.events ++ received.flatMap fun _ => [packetRate, delay] := by
  induction received with
  | nil => intro w; simp
  | cons job rest ih =>
    intro w
    obtain ⟨mid, hev, hmid⟩ := job_events dial verbose packetRate delay w job
    rw [List.foldl_cons, ih, hev]
    simp [sleeps_append, hmid, sleeps]

theorem sum_map_flatMap_pair (f : Int → Int) (received : List Job) (a b : Int) :
    ((received.flatMap fun _ => [a, b]).map f).sum = (received.length : Int) * (f a + f b) := by
  induction received with
  | nil => simp
  | cons job rest ih =>
    simp only [List.flatMap_cons, List.map_append, List.sum_append, ih, List.map_cons,
      List.map_nil, List.sum_cons, List.sum_nil, List.length_cons]
    push_cast
    ring

theorem Sleep_of_nonneg (d : Int) (h : 0 ≤ d) : time.Sleep d = d := by
  unfold time.Sleep
  split_ifs with h0
  · omega
  · rfl

theorem filter_only_port (dial : GoString → Bool) (p : Int) (received : List Job)
    (h : ∀ job ∈ received, dial job.address = true ↔ job.port = p) :
    (received.filter fun job => dial job.address).map Job.port =
      List.replicate ((received.map Job.port).count p) p := by
  induction received with
  | nil => simp
  | cons job rest ih =>
    have hrest := ih (fun j hj => h j (List.mem_cons_of_mem _ hj))
    have hjob := h job (by simp)
    by_cases hd : dial job.address = true
    · have hp : job.port = p := hjob.mp hd
      simp [List.filter_cons, hd, hrest, hp, List.replicate_succ]
    · have hp : ¬ job.port = p := fun e => hd (hjob.mpr e)
      simp [List.filter_cons, hd, hrest, List.count_cons, hp]

/-! ## The claims about `parsePorts` -/

/-- C1, as amended.  For every port specification that is a comma-separated
list of one or more tokens, each a run of decimal digits or two such runs with a
dash between them, whose integers are ones an `int` holds (at most
9223372036854775807) and whose range ends are below that number,
`parsePorts(spec, false)` returns, once its loops have the fuel to run to their
end, exactly the expansions of the tokens one after the other in token order:
`[n]` for an integer and `[start, ..., end]` (empty when `start > end`) for a
range, neither sorted nor deduplicated. -/
theorem parsePorts_valid_spec (fuel : Nat) (toks : List Token) (hne : toks ≠ [])
    (hvalid : ∀ t ∈ toks, t.isValid = true) (hfits : ∀ t ∈ toks, t.fits = true)
    (hfuel : ∀ t ∈ toks, t.expansion.length < fuel) :
    parsePorts fuel (commaSeparated (toks.map Token.text)) false =
      some (.ok (toks.flatMap Token.expansion)) := by
  have hsplit : strings.Split (commaSeparated (toks.map Token.text)) ',' =
      toks.map Token.text := by
    apply Split_commaSeparated
    · simpa using hne
    · intro t ht
      obtain ⟨tok, htok, rfl⟩ := List.mem_map.mp ht
      exact Token.comma_not_mem_text tok (hvalid tok htok)
  simp only [parsePorts, Bool.false_eq_true, if_false, hsplit]
  rw [tokens_valid fuel toks [] hvalid hfits hfuel]
  simp

/-- The specification `22,80,1000-1002` gives `[22, 80, 1000, 1001, 1002]`. -/
theorem parsePorts_valid_spec_witness :
    parsePorts 4 "22,80,1000-1002".toList false = some (.ok [22, 80, 1000, 1001, 1002]) :=
  parsePorts_valid_spec 4
    [.single "22".toList, .single "80".toList, .range "1000".toList "1002".toList]
    (by decide) (by decide) (by decide) (by decide)

/-- C1 as it is written fails: the one-token specification
`99999999999999999999` is a decimal integer, and `parsePorts` returns an error
for it, the number being too large for an `int`; on the range
`9223372036854775807-9223372036854775807` of two decimal integers the counting
loop of `parsePorts` never ends; and the list of no token at all, the empty
specification, is an error too. -/
theorem parsePorts_valid_spec_fails :
    ((Token.single "99999999999999999999".toList).isValid = true ∧
      ∀ fuel : Nat,
        parsePorts fuel
            (commaSeparated ([Token.single "99999999999999999999".toList].map Token.text))
            false =
          some (.error "invalid port number: 99999999999999999999".toList)) ∧
    ((Token.range "9223372036854775807".toList "9223372036854775807".toList).isValid = true ∧
      ∀ fuel : Nat,
        parsePorts fuel
            (commaSeparated
              ([Token.range "9223372036854775807".toList "9223372036854775807".toList].map
                Token.text))
            false = none) ∧
    (∀ fuel : Nat,
      parsePorts fuel (commaSeparated (([] : List Token).map Token.text)) false =
        some (.error "invalid port number: ".toList)) := by
  refine ⟨⟨by decide, fun fuel => rfl⟩, ⟨by decide, fun fuel => ?_⟩, fun fuel => rfl⟩
  have hsplit : strings.Split (commaSeparated
      ([Token.range "9223372036854775807".toList "9223372036854775807".toList].map
        Token.text)) ',' = ["9223372036854775807-9223372036854775807".toList] := by decide
  simp only [parsePorts, Bool.false_eq_true, if_false, hsplit]
  exact tokens_runs_forever fuel _ [] [] "9223372036854775807".toList
    "9223372036854775807".toList 9223372036854775807 (by decide) (by decide) (by decide)
    (by rw [maxInt_eq]; decide)

/-- C2.  The specification `9223372036854775807-9223372036854775807,abc` has the
malformed token `abc`, and `parsePorts` never returns on it, with an error or
without: the counting loop of its first token wraps around at the largest `int`
and runs for ever. -/
theorem parsePorts_malformed_not_reached :
    strings.Split "9223372036854775807-9223372036854775807,abc".toList ',' =
      ["9223372036854775807-9223372036854775807".toList, "abc".toList] ∧
    malformed "abc".toList = true ∧
    ∀ fuel : Nat,
      parsePorts fuel "9223372036854775807-9223372036854775807,abc".toList false = none := by
  have hsplit : strings.Split "9223372036854775807-9223372036854775807,abc".toList ',' =
      ["9223372036854775807-9223372036854775807".toList, "abc".toList] := by decide
  refine ⟨hsplit, by decide, fun fuel => ?_⟩
  simp only [parsePorts, Bool.false_eq_true, if_false, hsplit]
  exact tokens_runs_forever fuel _ _ [] "9223372036854775807".toList
    "9223372036854775807".toList 9223372036854775807 (by decide) (by decide) (by decide)
    (by rw [maxInt_eq]; decide)

/-- What does hold of C2: when no token before the first malformed one is a range
that ends at the largest `int`, the loops of `parsePorts` end and it returns an
error. -/
theorem parsePorts_malformed_error (fuel : Nat) (spec : GoString) (pre : List GoString)
    (tok : GoString) (post : List GoString)
    (hsplit : strings.Split spec ',' = pre ++ tok :: post)
    (hpre : ∀ t ∈ pre, malformed t = false ∧ endsAtMaxInt t = false)
    (hbad : malformed tok = true) (hfuel : 2 ^ 64 < fuel) :
    ∃ msg, parsePorts fuel spec false = some (.error msg) := by
  simp only [parsePorts, Bool.false_eq_true, if_false, hsplit]
  exact tokens_until_malformed fuel pre tok post hfuel hbad [] hpre

/-- The three malformed specifications the specification names are rejected. -/
theorem parsePorts_rejects_examples (fuel : Nat) :
    parsePorts fuel "80-".toList false =
      some (.error "invalid end of port range: ".toList) ∧
    parsePorts fuel "abc".toList false = some (.error "invalid port number: abc".toList) ∧
    parsePorts fuel "80-70-60".toList false =
      some (.error "invalid port range format: 80-70-60".toList) :=
  ⟨rfl, rfl, rfl⟩

/-- C3, as amended.  Whenever `parsePorts(spec, false)` returns an error, `spec`
has a first malformed comma-separated token, and the message of the error is
made from it: `invalid port number: ` and the whole token when the token has no
dash, `invalid port range format: ` and the whole token when it has a dash and
does not split into exactly two parts, and, when it splits into two parts,
`invalid start of port range: ` and only the part before the dash if that part
is not an integer, else `invalid end of port range: ` and only the part after
the dash. -/
theorem parsePorts_error_message (fuel : Nat) (spec msg : GoString)
    (h : parsePorts fuel spec false = some (.error msg)) :
    ∃ pre tok post, strings.Split spec ',' = pre ++ tok :: post ∧
      (∀ t ∈ pre, malformed t = false) ∧ malformed tok = true ∧
      (('-' ∉ tok ∧ msg = "invalid port number: ".toList ++ tok) ∨
       ('-' ∈ tok ∧ (strings.Split tok '-').length ≠ 2 ∧
          msg = "invalid port range format: ".toList ++ tok) ∨
       (∃ a b, '-' ∈ tok ∧ strings.Split tok '-' = [a, b] ∧ strconv.Atoi a = none ∧
          msg = "invalid start of port range: ".toList ++ a) ∨
       (∃ a b, '-' ∈ tok ∧ strings.Split tok '-' = [a, b] ∧ strconv.Atoi a ≠ none ∧
          strconv.Atoi b = none ∧ msg = "invalid end of port range: ".toList ++ b)) := by
  simp only [parsePorts, Bool.false_eq_true, if_false] at h
  exact tokens_error fuel _ [] msg h

/-- The specification `22,80-70-60` fails on its second token, and the message
holds that token. -/
theorem parsePorts_error_message_witness :
    ∃ pre tok post, strings.Split "22,80-70-60".toList ',' = pre ++ tok :: post ∧
      (∀ t ∈ pre, malformed t = false) ∧ malformed tok = true ∧
      (('-' ∉ tok ∧
          "invalid port range format: 80-70-60".toList = "invalid port number: ".toList ++ tok) ∨
       ('-' ∈ tok ∧ (strings.Split tok '-').length ≠ 2 ∧
          "invalid port range format: 80-70-60".toList =
            "invalid port range format: ".toList ++ tok) ∨
       (∃ a b, '-' ∈ tok ∧ strings.Split tok '-' = [a, b] ∧ strconv.Atoi a = none ∧
          "invalid port range format: 80-70-60".toList =
            "invalid start of port range: ".toList ++ a) ∨
       (∃ a b, '-' ∈ tok ∧ strings.Split tok '-' = [a, b] ∧ strconv.Atoi a ≠ none ∧
          strconv.Atoi b = none ∧
          "invalid port range format: 80-70-60".toList =
            "invalid end of port range: ".toList ++ b)) :=
  parsePorts_error_message 0 "22,80-70-60".toList "invalid port range format: 80-70-60".toList
    (by decide)

/-- C3 as it is written fails: on the specification `22,80-`, whose first
malformed token is `80-`, `parsePorts` returns the error
`invalid end of port range: `, a message that does not contain `80-`. -/
theorem parsePorts_error_without_token :
    strings.Split "22,80-".toList ',' = ["22".toList, "80-".toList] ∧
    malformed "22".toList = false ∧ malformed "80-".toList = true ∧
    (∀ fuel : Nat,
      parsePorts fuel "22,80-".toList false =
        some (.error "invalid end of port range: ".toList)) ∧
    ¬ ("80-".toList <:+: "invalid end of port range: ".toList) := by
  refine ⟨by decide, by decide, by decide, fun fuel => rfl, by decide⟩

/-- C4.  For every string `spec`, `parsePorts(spec, true)` returns, with no
error, the list `[1, 2, ..., 65535]`: it has 65535 elements and the element at
index `k` is `k + 1`. -/
theorem parsePorts_scanAll (fuel : Nat) (spec : GoString) (hfuel : 65536 ≤ fuel) :
    ∃ ports, parsePorts fuel spec true = some (.ok ports) ∧ ports = inclusive 1 65535 ∧
      ports.length = 65535 ∧ ∀ k : Nat, k < 65535 → ports[k]? = some ((k : Int) + 1) := by
  refine ⟨_, parsePorts_true_eq fuel spec hfuel, rfl, ?_, ?_⟩
  · rw [length_inclusive]
    decide
  · intro k hk
    rw [getElem?_inclusive 1 65535 k (by simpa using hk)]
    simp [add_comm]

/-- The malformed specification `abc` with `scanAll` set. -/
theorem parsePorts_scanAll_witness :
    ∃ ports, parsePorts 65536 "abc".toList true = some (.ok ports) ∧
      ports = inclusive 1 65535 ∧ ports.length = 65535 ∧
      ∀ k : Nat, k < 65535 → ports[k]? = some ((k : Int) + 1) :=
  parsePorts_scanAll 65536 "abc".toList (by decide)

/-- C6, as amended.  With `scanAll` set, every port of the list that `parsePorts`
returns lies between 1 and 65535, whatever `spec` is, so every `Job` that the
loop of `main` builds from that list has a port between 1 and 65535.  (Without
`scanAll` the ports are the integers written in `spec`, which nothing confines
to that interval.) -/
theorem parsePorts_scanAll_in_range (fuel : Nat) (spec : GoString) (ports : List Int)
    (h : parsePorts fuel spec true = some (.ok ports)) :
    (∀ p ∈ ports, 1 ≤ p ∧ p ≤ 65535) ∧
    ∀ hostname : GoString, ∀ job ∈ main.jobs hostname ports,
      1 ≤ job.port ∧ job.port ≤ 65535 := by
  have hports : ∀ p ∈ ports, 1 ≤ p ∧ p ≤ 65535 := by
    intro p hmem
    rw [parsePorts_true_inv fuel spec ports h] at hmem
    exact mem_inclusive 1 65535 p hmem
  refine ⟨hports, ?_⟩
  intro hostname job hjob
  obtain ⟨p, hmem, rfl⟩ := List.mem_map.mp hjob
  exact hports p hmem

/-- The specification `70000` with `scanAll` set: the list is returned, with
ports, and so jobs, from 1 to 65535. -/
theorem parsePorts_scanAll_in_range_witness :
    parsePorts 65536 "70000".toList true = some (.ok (inclusive 1 65535)) ∧
    (∀ p ∈ inclusive 1 65535, 1 ≤ p ∧ p ≤ 65535) ∧
    ∀ hostname : GoString, ∀ job ∈ main.jobs hostname (inclusive 1 65535),
      1 ≤ job.port ∧ job.port ≤ 65535 :=
  ⟨parsePorts_true_eq 65536 _ (le_refl _),
    parsePorts_scanAll_in_range 65536 "70000".toList (inclusive 1 65535)
      (parsePorts_true_eq 65536 _ (le_refl _))⟩

/-- C6 as it is written fails: without `scanAll`, `parsePorts` returns the port 0
for the specification `0` and the port 70000 for `70000`. -/
theorem parsePorts_port_out_of_range :
    (∀ fuel : Nat, parsePorts fuel "0".toList false = some (.ok [0])) ∧
    (∀ fuel : Nat, parsePorts fuel "70000".toList false = some (.ok [70000])) ∧
    ¬ (1 ≤ (0 : Int) ∧ (0 : Int) ≤ 65535) ∧ ¬ (1 ≤ (70000 : Int) ∧ (70000 : Int) ≤ 65535) := by
  refine ⟨fun fuel => rfl, fun fuel => rfl, by decide, by decide⟩

/-! ## The claims about `main` -/

/-- As `main` stands it passes `true` for `scanAll`, so whenever it starts the
workers the jobs it sends them are those of the ports 1 to 65535. -/
theorem main_jobs_in_range (ParseDuration : GoString → Option Int) (NumCPU : Int) (fuel : Nat)
    (osArgs : List GoString) (st : Flags) (jobs : List Job)
    (h : main ParseDuration NumCPU fuel osArgs = some (.scan st jobs)) :
    ∃ hostname, jobs = main.jobs hostname (inclusive 1 65535) := by
  obtain ⟨hostname, ports, hp, rfl⟩ := main_scan_inv ParseDuration NumCPU fuel osArgs st jobs h
  exact ⟨hostname, by rw [parsePorts_true_inv fuel _ ports hp]⟩

/-- C5.  On the command line `port-scanner localhost -p 80` the flag loop stores
`80` in `portArg`, and `parsePorts("80", false)` is `[80]`; yet `main` calls
`parsePorts` with `scanAll` set and builds a job for each of the ports 1 to
65535.  On `port-scanner localhost -p abc`, whose specification `parsePorts`
rejects, `main` does the same and does not exit. -/
theorem main_ignores_port_flag (ParseDuration : GoString → Option Int) (NumCPU : Int) :
    (∃ st, main ParseDuration NumCPU 65536
          ["port-scanner".toList, "localhost".toList, "-p".toList, "80".toList] =
        some (.scan st (main.jobs "localhost".toList (inclusive 1 65535))) ∧
      st.portArg = "80".toList) ∧
    parsePorts 65536 "80".toList false = some (.ok [80]) ∧
    inclusive 1 65535 ≠ [80] ∧
    (∃ st, main ParseDuration NumCPU 65536
          ["port-scanner".toList, "localhost".toList, "-p".toList, "abc".toList] =
        some (.scan st (main.jobs "localhost".toList (inclusive 1 65535))) ∧
      st.portArg = "abc".toList) ∧
    parsePorts 65536 "abc".toList false = some (.error "invalid port number: abc".toList) := by
  refine ⟨?_, rfl, ?_, ?_, rfl⟩
  · obtain ⟨st, hmain, _, _, _, _, hport⟩ := main_of_flags ParseDuration NumCPU 65536
      "port-scanner".toList "localhost".toList ["-p".toList, "80".toList]
      { Flags.initial with portArg := "80".toList } rfl (le_refl _)
    exact ⟨st, hmain, hport⟩
  · intro h
    have hlen := congrArg List.length h
    rw [length_inclusive] at hlen
    revert hlen
    decide
  · obtain ⟨st, hmain, _, _, _, _, hport⟩ := main_of_flags ParseDuration NumCPU 65536
      "port-scanner".toList "localhost".toList ["-p".toList, "abc".toList]
      { Flags.initial with portArg := "abc".toList } rfl (le_refl _)
    exact ⟨st, hmain, hport⟩

/-- C7.  On the command line `port-scanner localhost --min-packet-rate=0` the flag
loop of `main` does not exit: the workers are started with `minPacketRate = 0`,
and `scanPorts` then panics on the division `1000000000 / minPacketRate`,
whatever it is sent.  The sibling flag `--threads=0` is rejected with exit
code 1. -/
theorem main_accepts_zero_packet_rate (ParseDuration : GoString → Option Int)
    (NumCPU : Int) :
    (∃ st, main ParseDuration NumCPU 65536
          ["port-scanner".toList, "localhost".toList, "--min-packet-rate=0".toList] =
        some (.scan st (main.jobs "localhost".toList (inclusive 1 65535))) ∧
      st.minPacketRate = 0 ∧
      ∀ (dial : GoString → Bool) (received : List Job) (available : List Int),
        scanPorts dial st.verbose st.minPacketRate st.delay received available = none) ∧
    ∀ fuel : Nat, main ParseDuration NumCPU fuel
        ["port-scanner".toList, "localhost".toList, "--threads=0".toList] =
      some (.exit1 "Error: invalid number of threads".toList) := by
  refine ⟨?_, fun fuel => rfl⟩
  obtain ⟨st, hmain, hrate, _⟩ := main_of_flags ParseDuration NumCPU 65536
    "port-scanner".toList "localhost".toList ["--min-packet-rate=0".toList]
    { Flags.initial with minPacketRate := 0 } rfl (le_refl _)
  refine ⟨st, hmain, hrate, ?_⟩
  intro dial received available
  rw [hrate]
  rfl

/-! ## The claims about a `scanPorts` worker -/

/-- C9, as amended.  A worker that runs (`minPacketRate` is not 0) and processes
a list of jobs leaves in `available` what was there followed by the ports of
the jobs whose dial succeeded, in the order of the jobs and once for each such
job: one job appends its port exactly when its dial succeeds and leaves
`available` as it was otherwise.  Hence nothing is appended when every dial
fails, and when `p` is the only port that accepts, `p` is appended once for each
job that scans it: exactly `[p]` when exactly one job scans `p`. -/
theorem scanPorts_available (dial : GoString → Bool) (verbose minPacketRate delay : Int)
    (received : List Job) (available : List Int) (hrate : minPacketRate ≠ 0) :
    ∃ w, scanPorts dial verbose minPacketRate delay received available = some w ∧
      w.available = available ++ (received.filter fun job => dial job.address).map Job.port ∧
      (∀ (packetRate : Int) (w0 : Worker) (job : Job),
        (scanPorts.job dial verbose packetRate delay w0 job).available =
          if dial job.address then w0.available ++ [job.port] else w0.available) ∧
      ((∀ job ∈ received, dial job.address = false) → w.available = available) ∧
      ∀ p : Int, (∀ job ∈ received, dial job.address = true ↔ job.port = p) →
        w.available = available ++ List.replicate ((received.map Job.port).count p) p ∧
        ((received.map Job.port).count p = 1 → w.available = available ++ [p]) := by
  have hav := foldl_job_available dial verbose (Int.tdiv 1000000000 minPacketRate) delay
    received { available := available, events := [] }
  refine ⟨_, by simp only [scanPorts, hrate, if_false], hav, ?_, ?_, ?_⟩
  · intro packetRate w0 job
    exact job_available dial verbose packetRate delay w0 job
  · intro hall
    rw [hav]
    have hnil : (received.filter fun job => dial job.address) = [] := by
      rw [List.filter_eq_nil_iff]
      intro job hjob
      simp [hall job hjob]
    simp [hnil]
  · intro p hp
    have hrep := filter_only_port dial p received hp
    refine ⟨by rw [hav, hrep], fun hone => ?_⟩
    rw [hav, hrep, hone]
    rfl

/-- Three jobs for the ports 79, 80 and 81 of a host where only 80 accepts. -/
theorem scanPorts_available_witness :
    ∃ w, scanPorts (fun address => address == "h:80".toList) 0 10000 0
        [⟨"h".toList, 79⟩, ⟨"h".toList, 80⟩, ⟨"h".toList, 81⟩] [] = some w ∧
      w.available = [80] := by
  obtain ⟨w, hw, hav, _⟩ := scanPorts_available (fun address => address == "h:80".toList)
    0 10000 0 [⟨"h".toList, 79⟩, ⟨"h".toList, 80⟩, ⟨"h".toList, 81⟩] [] (by decide)
  refine ⟨w, hw, ?_⟩
  rw [hav]
  decide

/-- C9 as it is written fails: with two jobs for the port 80, the only port that
accepts, a worker leaves `[80, 80]` in `available`, not `[80]`. -/
theorem scanPorts_available_twice :
    (∀ job ∈ ([⟨"h".toList, 80⟩, ⟨"h".toList, 80⟩] : List Job),
      (fun address => address == "h:80".toList) job.address = true ↔ job.port = 80) ∧
    ∃ w, scanPorts (fun address => address == "h:80".toList) 0 10000 0
        [⟨"h".toList, 80⟩, ⟨"h".toList, 80⟩] [] = some w ∧
      w.available = [80, 80] ∧ w.available ≠ [80] := by
  refine ⟨by decide, _, rfl, by decide, by decide⟩

/-- C10, as amended.  For every `minPacketRate > 0` and every `delay` that is
not negative, a worker calls `time.Sleep` twice in each turn of its loop, after
the dial and whether or not it succeeded: first with the integer quotient
`1000000000 / minPacketRate` nanoseconds, then with `delay`.  It sleeps
`1000000000 / minPacketRate + delay` nanoseconds in a turn, and a worker that
processes `k` jobs sleeps `k` times that. -/
theorem scanPorts_sleeps (dial : GoString → Bool) (verbose minPacketRate delay : Int)
    (received : List Job) (available : List Int) (hrate : 0 < minPacketRate)
    (hdelay : 0 ≤ delay) :
    ∃ w, scanPorts dial verbose minPacketRate delay received available = some w ∧
      sleeps w.events = (received.flatMap fun _ => [1000000000 / minPacketRate, delay]) ∧
      slept w.events = (received.length : Int) * (1000000000 / minPacketRate + delay) ∧
      ∀ (w0 : Worker) (job : Job), ∃ mid,
        (scanPorts.job dial verbose (1000000000 / minPacketRate) delay w0 job).events =
          w0.events ++ mid ++
            [.sleep (1000000000 / minPacketRate), .sleep delay, .done] ∧
        sleeps mid = [] ∧
        slept (scanPorts.job dial verbose (1000000000 / minPacketRate) delay w0 job).events =
          slept w0.events + (1000000000 / minPacketRate + delay) := by
  have hdiv : Int.tdiv 1000000000 minPacketRate = 1000000000 / minPacketRate :=
    Int.tdiv_eq_ediv (by decide) (le_of_lt hrate)
  have hne : minPacketRate ≠ 0 := ne_of_gt hrate
  have hq : 0 ≤ 1000000000 / minPacketRate := Int.ediv_nonneg (by decide) (le_of_lt hrate)
  have hsl := foldl_job_sleeps dial verbose (1000000000 / minPacketRate) delay received
    { available := available, events := [] }
  simp only [sleeps, List.nil_append] at hsl
  refine ⟨_, by simp only [scanPorts, hne, if_false, hdiv], hsl, ?_, ?_⟩
  · rw [slept, hsl, sum_map_flatMap_pair, Sleep_of_nonneg _ hq, Sleep_of_nonneg _ hdelay]
  · intro w0 job
    obtain ⟨mid, hev, hmid⟩ :=
      job_events dial verbose (1000000000 / minPacketRate) delay w0 job
    refine ⟨mid, hev, hmid, ?_⟩
    rw [slept, slept, hev]
    simp only [sleeps_append, hmid, sleeps, List.append_nil, List.map_append, List.map_cons,
      List.map_nil, List.sum_append, List.sum_cons, List.sum_nil,
      Sleep_of_nonneg _ hq, Sleep_of_nonneg _ hdelay]
    ring

/-- Two jobs at 10000 packets a second and a delay of 5 ns: four sleeps, of
100000 ns and 5 ns in turn, 200010 ns in all. -/
theorem scanPorts_sleeps_witness :
    ∃ w, scanPorts (fun address => address == "h:80".toList) 3 10000 5
        [⟨"h".toList, 79⟩, ⟨"h".toList, 80⟩] [] = some w ∧
      sleeps w.events = [100000, 5, 100000, 5] ∧ slept w.events = 200010 := by
  obtain ⟨w, hw, hsl, hsum, _⟩ := scanPorts_sleeps (fun address => address == "h:80".toList)
    3 10000 5 [⟨"h".toList, 79⟩, ⟨"h".toList, 80⟩] [] (by decide) (by decide)
  refine ⟨w, hw, ?_, ?_⟩
  · rw [hsl]
    decide
  · rw [hsum]
    decide

/-- C10 as it is written fails for a negative `delay`, which `main` accepts: with
`--delay=-5ns` parsed to -5 ns the workers are started with `delay = -5`, and a
worker that processes two jobs at 10000 packets a second calls
`time.Sleep(100000)` and `time.Sleep(-5)` in each turn, the second call returning
at once: it sleeps 200000 ns, not 2 * (1000000000 / 10000 + -5) = 199990 ns. -/
theorem scanPorts_sleeps_negative_delay :
    (∃ st jobs,
      main (fun s => if s = "-5ns".toList then some (-5) else none) 8 65536
          ["port-scanner".toList, "localhost".toList, "--delay=-5ns".toList] =
        some (.scan st jobs) ∧ st.delay = -5 ∧ st.minPacketRate = 10000) ∧
    ∃ w, scanPorts (fun address => address == "h:80".toList) 0 10000 (-5)
        [⟨"h".toList, 79⟩, ⟨"h".toList, 80⟩] [] = some w ∧
      sleeps w.events = [100000, -5, 100000, -5] ∧
      slept w.events = 200000 ∧
      slept w.events ≠ 2 * (1000000000 / 10000 + -5) := by
  refine ⟨?_, _, rfl, by decide, by decide, by decide⟩
  obtain ⟨st, hmain, hrate, hdelay, _⟩ :=
    main_of_flags (fun s => if s = "-5ns".toList then some (-5) else none) 8 65536
      "port-scanner".toList "localhost".toList ["--delay=-5ns".toList]
      { Flags.initial with delay := -5 } (by decide) (le_refl _)
  exact ⟨st, _, hmain, hdelay, hrate⟩

end PortScanner
